import Mathlib

/-!
# Verification of the CLU (Codified Lemma Utility) dependency-graph core

This file is a shallow embedding, in Lean 4, of the dependency-graph core of
`src/clu.py` (class `CodedLemmaUtility`): the record store, the edge
maintenance operations (`add_dependency`, `remove_dependency`,
`delete_lemma`), the closure queries (`get_dependency_chain`,
`get_dependents`), the id allocator of `add_lemma`, and the filter logic of
`search`.

Modelling conventions:

* A Python dict `self.lemmas` (string key -> record, unique keys, insertion
  ordered) is an association list `List (String × Lemma)`; lookup takes the
  first matching key, assignment (`setKey`) replaces in place or appends.
* Timestamps (`datetime.now().isoformat()`) are threaded explicitly as a
  `now : String` argument to each operation that reads the clock.
* File persistence (`save`/`load`) and the `metadata` block are outside the
  embedded fragment: no claim refers to them, and `save` does not change the
  in-memory record state.
* Python's `re.search(query, text, IGNORECASE)` is an external engine; it is
  modelled as an explicit functional argument
  `rmatch : String → String → Option Bool`, where `none` plays the role of
  `re.error` (invalid pattern) and `some b` reports whether a match exists.
* The `while to_process:` loop of `get_dependency_chain` is embedded with an
  explicit fuel parameter; `chainMeasure` is a fuel bound proven sufficient
  (the loop body is faithful: `to_process.pop()` pops the last element, so
  the work list is represented head-first, and `extend` prepends the
  reversed dependency list).
-/

/-- One lemma record, the value stored under a code in `self.lemmas`
(`src/clu.py`, `add_lemma`). -/
structure Lemma where
  statement : String
  proof : String
  tags : List String
  category : String
  notes : String
  dependencies : List String
  created : String
  modified : String
deriving DecidableEq

/-- The in-memory state of `CodedLemmaUtility`: the record mapping and the id
allocator counter. -/
structure Store where
  lemmas : List (String × Lemma)
  code_counter : Nat
deriving DecidableEq

/-- Dict lookup `self.lemmas.get(code)`: first entry with the given key. -/
def Store.get? (s : Store) (code : String) : Option Lemma :=
  (s.lemmas.find? (fun p => p.1 == code)).map Prod.snd

/-- Dict assignment `self.lemmas[code] = l`: replace the entry in place when
the key is present, append otherwise. -/
def setKey (ls : List (String × Lemma)) (code : String) (l : Lemma) :
    List (String × Lemma) :=
  if ls.any (fun p => p.1 == code) then
    ls.map (fun p => if p.1 == code then (p.1, l) else p)
  else
    ls ++ [(code, l)]

/-- Python string truthiness default `x or d` for an optional argument. -/
def pyOrStr (v : Option String) (d : String) : String :=
  match v with
  | none => d
  | some x => if x = "" then d else x

/-- Python list truthiness default `x or []` for an optional argument. -/
def pyOrList (v : Option (List String)) : List String :=
  match v with
  | none => []
  | some x => if x = [] then [] else x

/-- `add_lemma` (`src/clu.py` lines 37-70): allocate the code
`f"L{self.code_counter}"`, bump the counter, store a fresh record with
defaulted fields, return the code. -/
def add_lemma (s : Store) (now : String) (statement : String)
    (proof : Option String) (tags : Option (List String))
    (category : Option String) (notes : Option String) : String × Store :=
  let code := "L" ++ Nat.repr s.code_counter
  let lem : Lemma :=
    { statement := statement
      proof := pyOrStr proof ""
      tags := pyOrList tags
      category := pyOrStr category "general"
      notes := pyOrStr notes ""
      dependencies := []
      created := now
      modified := now }
  (code, { lemmas := setKey s.lemmas code lem, code_counter := s.code_counter + 1 })

/-- `delete_lemma` (`src/clu.py` lines 100-121): not-found is a `false`
result with no change; otherwise remove the first occurrence of the deleted
code from every record's `dependencies` list (Python `list.remove` guarded by
`in`), then drop the record itself. -/
def delete_lemma (s : Store) (code : String) : Bool × Store :=
  if (s.get? code).isSome then
    let cleaned := s.lemmas.map (fun p =>
      (p.1, if code ∈ p.2.dependencies then
        { p.2 with dependencies := p.2.dependencies.erase code }
      else p.2))
    (true, { s with lemmas := cleaned.filter (fun p => !(p.1 == code)) })
  else
    (false, s)

/-- `add_dependency` (`src/clu.py` lines 123-140): both codes must exist,
otherwise `false` with no change; a present edge is left alone (still
reporting `true`); a new edge is appended and `modified` is stamped. -/
def add_dependency (s : Store) (now : String) (code depends_on : String) :
    Bool × Store :=
  match s.get? code with
  | some lem =>
    if (s.get? depends_on).isSome then
      if depends_on ∈ lem.dependencies then
        (true, s)
      else
        let lem' : Lemma :=
          { lem with dependencies := lem.dependencies ++ [depends_on], modified := now }
        (true, { s with lemmas := setKey s.lemmas code lem' })
    else
      (false, s)
  | none => (false, s)

/-- `remove_dependency` (`src/clu.py` lines 142-148): succeeds when the code
exists and the edge is present, removing the first occurrence of the edge.
Note: the Python body never touches the record's `modified` field, so this
embedding takes no clock argument at all. -/
def remove_dependency (s : Store) (code depends_on : String) : Bool × Store :=
  match s.get? code with
  | some lem =>
    if depends_on ∈ lem.dependencies then
      let lem' : Lemma := { lem with dependencies := lem.dependencies.erase depends_on }
      (true, { s with lemmas := setKey s.lemmas code lem' })
    else
      (false, s)
  | none => (false, s)

/-- The dependency list the traversal reads at a node:
`self.lemmas[current]['dependencies']`.  The Python expression is a direct
dict index, well defined exactly on stores with no dangling edge (the
documented store invariant, `Closed` below); on a missing key this embedding
reads the empty list. -/
def depsOf (s : Store) (code : String) : List String :=
  match s.get? code with
  | some l => l.dependencies
  | none => []

/-- The `while to_process:` loop of `get_dependency_chain` (`src/clu.py`
lines 226-231), with explicit fuel.  `current = to_process.pop()` pops the
last Python-list element, so the work list is kept head-first here and
`to_process.extend(deps)` prepends `deps.reverse`. -/
def chainStep (s : Store) : Nat → Finset String → List String → Finset String
  | 0, chain, _ => chain
  | _ + 1, chain, [] => chain
  | fuel + 1, chain, current :: rest =>
    if current ∈ chain then
      chainStep s fuel chain rest
    else
      chainStep s fuel (insert current chain) ((depsOf s current).reverse ++ rest)

/-- Total length of the dependency lists of a run of entries. -/
def sumDeps : List (String × Lemma) → Nat
  | [] => 0
  | p :: rest => p.2.dependencies.length + sumDeps rest

/-- Dependency-list mass of the entries not yet visited. -/
def pendingDeps (s : Store) (chain : Finset String) : Nat :=
  sumDeps (s.lemmas.filter (fun p => decide (p.1 ∉ chain)))

/-- Fuel bound for `chainStep`: every loop iteration strictly decreases this
quantity, so it bounds the number of iterations of the Python `while` loop. -/
def chainMeasure (s : Store) (chain : Finset String) (tp : List String) : Nat :=
  tp.length + pendingDeps s chain

/-- `get_dependency_chain` (`src/clu.py` lines 210-234): missing code gives
`[]`; otherwise run the work-list traversal seeded with `[code]`, discard the
origin, and return the sorted remainder. -/
def get_dependency_chain (s : Store) (code : String) : List String :=
  if (s.get? code).isSome then
    Finset.sort (· ≤ ·)
      ((chainStep s (chainMeasure s ∅ [code]) ∅ [code]).erase code)
  else
    []

/-- `get_dependents` (`src/clu.py` lines 236-250): codes of the records whose
`dependencies` list directly contains the given code, sorted. -/
def get_dependents (s : Store) (code : String) : List String :=
  ((s.lemmas.filter (fun p => decide (code ∈ p.2.dependencies))).map Prod.fst).mergeSort

/-- One depends-on edge as recorded on the records. -/
def Edge (s : Store) (a b : String) : Prop :=
  b ∈ depsOf s a

/-- Reachability along recorded depends-on edges (reflexive-transitive). -/
def Reaches (s : Store) : String → String → Prop :=
  Relation.ReflTransGen (Edge s)

/-- Store invariant (spec §3): no dependency edge points at a missing record.
On such stores the Python dict index inside the traversal never raises. -/
def Closed (s : Store) : Prop :=
  ∀ p ∈ s.lemmas, ∀ d ∈ p.2.dependencies, (s.get? d).isSome

/-- Store invariant (spec §3 models `dependencies` as a set): no duplicate
entries inside a single record's dependency list. -/
def DepsNodup (s : Store) : Prop :=
  ∀ p ∈ s.lemmas, p.2.dependencies.Nodup

/-- The concatenated haystack `f"{statement} {proof} {notes}"` used by
`search`. -/
def searchText (lem : Lemma) : String :=
  lem.statement ++ " " ++ lem.proof ++ " " ++ lem.notes

/-- Bool test: `needle` starts `hay` (on character lists). -/
def startsWithChars : List Char → List Char → Bool
  | [], _ => true
  | _ :: _, [] => false
  | a :: as, b :: bs => a == b && startsWithChars as bs

/-- Bool test: `needle` occurs inside `hay` (Python `needle in hay`). -/
def hasSubChars (needle : List Char) : List Char → Bool
  | [] => startsWithChars needle []
  | c :: rest => startsWithChars needle (c :: rest) || hasSubChars needle rest

/-- The `if query:` filter of `search` (`src/clu.py` lines 187-199): regex
mode runs the engine and, on `re.error`, skips the filter (the record is
kept); substring mode lowercases both sides. -/
def queryFilter (rmatch : String → String → Option Bool) (regex : Bool)
    (q : String) (lem : Lemma) : Bool :=
  if regex then
    match rmatch q (searchText lem) with
    | some b => b
    | none => true
  else
    hasSubChars q.toLower.data (searchText lem).toLower.data

/-- The `if category` filter (truthy category must match exactly). -/
def categoryFilter (category : Option String) (lem : Lemma) : Bool :=
  match category with
  | none => true
  | some c => if c = "" then true else lem.category == c

/-- The `has_proof is not None` filter (`bool(lemma['proof'])` comparison). -/
def proofFilter (has_proof : Option Bool) (lem : Lemma) : Bool :=
  match has_proof with
  | none => true
  | some b => (!(lem.proof == "")) == b

/-- The `if tags:` filter: the record must carry ALL requested tags. -/
def tagsFilter (tags : Option (List String)) (lem : Lemma) : Bool :=
  match tags with
  | none => true
  | some ts => if ts = [] then true else ts.all (fun t => lem.tags.contains t)

/-- The `if query:` truthiness wrapper around `queryFilter`. -/
def queryGate (rmatch : String → String → Option Bool) (regex : Bool)
    (query : Option String) (lem : Lemma) : Bool :=
  match query with
  | none => true
  | some q => if q = "" then true else queryFilter rmatch regex q lem

/-- `search` (`src/clu.py` lines 150-203): keep the records passing every
filter, preserving identity and store order (the Python result dict). -/
def search (s : Store) (query : Option String) (tags : Option (List String))
    (category : Option String) (has_proof : Option Bool) (regex : Bool)
    (rmatch : String → String → Option Bool) : List (String × Lemma) :=
  s.lemmas.filter (fun p =>
    categoryFilter category p.2 && proofFilter has_proof p.2 &&
    tagsFilter tags p.2 && queryGate rmatch regex query p.2)

/-- One driver step for allocator runs: a `create` call (with its optional
arguments) or a `delete` call. -/
inductive Op where
  | add (statement : String) (proof : Option String) (tags : Option (List String))
      (category : Option String) (notes : Option String)
  | del (code : String)

/-- Run a sequence of `create`/`delete` calls, collecting the ids that
`add_lemma` hands out, in order. -/
def runOps (now : String) : List Op → Store → Store × List String
  | [], s => (s, [])
  | Op.add st pf tg ct nt :: rest, s =>
    let r := add_lemma s now st pf tg ct nt
    let tail := runOps now rest r.2
    (tail.1, r.1 :: tail.2)
  | Op.del c :: rest, s => runOps now rest (delete_lemma s c).2

/-- Decimal value of a digit character, left inverse of `Nat.digitChar` on
`0..9`. -/
def decDigit (c : Char) : Nat :=
  if c = '1' then 1 else if c = '2' then 2 else if c = '3' then 3
  else if c = '4' then 4 else if c = '5' then 5 else if c = '6' then 6
  else if c = '7' then 7 else if c = '8' then 8 else if c = '9' then 9 else 0

/-- Decode a most-significant-first decimal digit list. -/
def decodeDigits (l : List Char) : Nat :=
  l.foldl (fun a c => 10 * a + decDigit c) 0

/-- Record with a replaced dependency list (Python mutates the list field in
place). -/
def withDeps (l : Lemma) (ds : List String) : Lemma :=
  { l with dependencies := ds }

/-- Record with a replaced dependency list and a refreshed `modified` stamp. -/
def withDepsMod (l : Lemma) (ds : List String) (m : String) : Lemma :=
  { l with dependencies := ds, modified := m }

/-- The per-record cleanup `delete_lemma` applies to every surviving entry. -/
def cleanEntry (X : String) (p : String × Lemma) : String × Lemma :=
  (p.1, if X ∈ p.2.dependencies then
    withDeps p.2 (p.2.dependencies.erase X)
  else p.2)

/-- A record with the given dependency list, for concrete test stores. -/
def mkRecord (deps : List String) : Lemma :=
  { statement := "stmt", proof := "prf", tags := [], category := "general",
    notes := "", dependencies := deps, created := "t0", modified := "t0" }

/-- A concrete store whose edges form the cycle L1000 → L1001 → L1002 → L1000. -/
def cycStore : Store :=
  { lemmas := [("L1000", mkRecord ["L1001"]), ("L1001", mkRecord ["L1002"]),
    ("L1002", mkRecord ["L1000"])], code_counter := 1003 }

/-- Regex engine reporting `re.error` on every input: a pattern that fails to
compile. -/
def noMatch : String → String → Option Bool := fun _ _ => none

/-- Record with a refreshed `modified` stamp only. -/
def withMod (l : Lemma) (m : String) : Lemma :=
  { l with modified := m }

/-- One keyword argument of `update_lemma`.  Python's `**kwargs` carries
dynamically typed values that the runtime `allowed_fields` check filters;
here each allowed field name carries a value of that field's type, and
`other` stands for any field name outside `allowed_fields` (including
`modified` itself), which the loop silently ignores. -/
inductive FieldArg where
  | statement (v : String)
  | proof (v : String)
  | tags (v : List String)
  | category (v : String)
  | notes (v : String)
  | other (name : String)

/-- One iteration of the `for field, value in kwargs.items()` loop of
`update_lemma`: assign the field when it is in `allowed_fields`, ignore it
otherwise. -/
def applyField (l : Lemma) : FieldArg → Lemma
  | FieldArg.statement v => { l with statement := v }
  | FieldArg.proof v => { l with proof := v }
  | FieldArg.tags v => { l with tags := v }
  | FieldArg.category v => { l with category := v }
  | FieldArg.notes v => { l with notes := v }
  | FieldArg.other _ => l

/-- `update_lemma` (`src/clu.py` lines 76-98): an absent code reports
failure with no change; otherwise the allowed keyword arguments are
assigned in order, `modified` is stamped to the current time, and the store
is persisted. -/
def update_lemma (s : Store) (now code : String) (kwargs : List FieldArg) :
    Bool × Store :=
  match s.get? code with
  | some lem =>
    let lem' : Lemma := withMod (kwargs.foldl applyField lem) now
    (true, { s with lemmas := setKey s.lemmas code lem' })
  | none => (false, s)

theorem get?_mem (s : Store) (code : String) (l : Lemma)
    (h : s.get? code = some l) : (code, l) ∈ s.lemmas := by
  unfold Store.get? at h
  cases hf : s.lemmas.find? (fun p => p.1 == code) with
  | none => rw [hf] at h; simp at h
  | some p =>
    rw [hf] at h
    simp only [Option.map_some'] at h
    have hpred := List.find?_some hf
    have hmem := List.mem_of_find?_eq_some hf
    have hkey : p.1 = code := by simpa using hpred
    have : p = (code, l) := by
      cases p; simp_all
    rwa [this] at hmem

theorem find?_append_single_ne (code k : String) (l : Lemma) (hne : k ≠ code) :
    ∀ ls : List (String × Lemma),
      (ls ++ [(code, l)]).find? (fun p => p.1 == k) = ls.find? (fun p => p.1 == k)
  | [] => by
    have hck : (code == k) = false := by simp [Ne.symm hne]
    simp [List.find?_cons, hck]
  | p :: rest => by
    rw [List.cons_append]
    cases hp : (p.1 == k) with
    | true => simp [List.find?_cons, hp]
    | false =>
      simp only [List.find?_cons, hp, cond_false]
      exact find?_append_single_ne code k l hne rest

theorem find?_map_replace_ne (code k : String) (l : Lemma) (hne : k ≠ code) :
    ∀ ls : List (String × Lemma),
      ((ls.map (fun p => if p.1 == code then (p.1, l) else p)).find?
        (fun p => p.1 == k)) = ls.find? (fun p => p.1 == k)
  | [] => rfl
  | p :: rest => by
    rw [List.map_cons]
    by_cases hc : (p.1 == code) = true
    · have hrep : (if p.1 == code then (p.1, l) else p) = (p.1, l) := by simp [hc]
      have hkc : p.1 = code := by simpa using hc
      have hk : (p.1 == k) = false := by simp [hkc, Ne.symm hne]
      rw [hrep]
      simp only [List.find?_cons, hk, cond_false]
      exact find?_map_replace_ne code k l hne rest
    · have hrep : (if p.1 == code then (p.1, l) else p) = p := by simp [hc]
      rw [hrep]
      cases hp : (p.1 == k) with
      | true => simp [List.find?_cons, hp]
      | false =>
        simp only [List.find?_cons, hp, cond_false]
        exact find?_map_replace_ne code k l hne rest

theorem find?_setKey_ne (ls : List (String × Lemma)) (code k : String) (l : Lemma)
    (hne : k ≠ code) :
    (setKey ls code l).find? (fun p => p.1 == k) = ls.find? (fun p => p.1 == k) := by
  unfold setKey
  by_cases ha : ls.any (fun p => p.1 == code)
  · rw [if_pos ha]; exact find?_map_replace_ne code k l hne ls
  · rw [if_neg ha]; exact find?_append_single_ne code k l hne ls

theorem get?_setKey_self (ls : List (String × Lemma)) (code : String) (l : Lemma) :
    ((setKey ls code l).find? (fun p => p.1 == code)).map Prod.snd = some l := by
  unfold setKey
  by_cases ha : ls.any (fun p => p.1 == code)
  · rw [if_pos ha]
    induction ls with
    | nil => simp at ha
    | cons p rest ih =>
      by_cases hp : (p.1 == code) = true
      · have hrep : (if p.1 == code then (p.1, l) else p) = (p.1, l) := by simp [hp]
        rw [List.map_cons, hrep]
        simp [List.find?_cons, hp]
      · have hb : (p.1 == code) = false := by simp at hp ⊢; exact hp
        have hrep : (if p.1 == code then (p.1, l) else p) = p := by simp [hb]
        rw [List.map_cons, hrep]
        simp only [List.find?_cons, hb, cond_false]
        apply ih
        simp only [List.any_cons, Bool.or_eq_true] at ha
        rcases ha with h | h
        · exact absurd h hp
        · exact h
  · rw [if_neg ha]
    induction ls with
    | nil => simp [List.find?_cons]
    | cons p rest ih =>
      have hb : (p.1 == code) = false := by
        cases h : (p.1 == code) with
        | true => exact absurd (by simp [List.any_cons, h]) ha
        | false => rfl
      rw [List.cons_append]
      simp only [List.find?_cons, hb, cond_false]
      apply ih
      intro h
      exact ha (by simp only [List.any_cons, Bool.or_eq_true]; right; exact h)

theorem sumDeps_filter_mono (q r : (String × Lemma) → Bool)
    (himp : ∀ p, q p = true → r p = true) :
    ∀ L : List (String × Lemma), sumDeps (L.filter q) ≤ sumDeps (L.filter r)
  | [] => Nat.le_refl _
  | p :: rest => by
    have ih := sumDeps_filter_mono q r himp rest
    rw [List.filter_cons, List.filter_cons]
    cases hq : q p with
    | true =>
      rw [himp p hq]
      simp only [if_true, sumDeps]
      omega
    | false =>
      cases hr : r p with
      | true => simp only [Bool.false_eq_true, if_false, if_true, sumDeps]; omega
      | false => simpa using ih

theorem sumDeps_filter_drop (q r : (String × Lemma) → Bool)
    (himp : ∀ p, q p = true → r p = true) (e : String × Lemma)
    (hq : q e = false) (hr : r e = true) :
    ∀ L : List (String × Lemma), e ∈ L →
      sumDeps (L.filter q) + e.2.dependencies.length ≤ sumDeps (L.filter r)
  | [], h => absurd h (List.not_mem_nil e)
  | p :: rest, h => by
    rw [List.filter_cons, List.filter_cons]
    rcases List.mem_cons.mp h with he | he
    · subst he
      rw [hq, hr]
      have := sumDeps_filter_mono q r himp rest
      simp only [Bool.false_eq_true, if_false, if_true, sumDeps]
      omega
    · have ih := sumDeps_filter_drop q r himp e hq hr rest he
      cases hqp : q p with
      | true =>
        rw [himp p hqp]
        simp only [if_true, sumDeps]
        omega
      | false =>
        cases hrp : r p with
        | true => simp only [Bool.false_eq_true, if_false, if_true, sumDeps]; omega
        | false => simpa using ih

theorem pendingDeps_insert_le (s : Store) (chain : Finset String) (c : String) :
    pendingDeps s (insert c chain) ≤ pendingDeps s chain := by
  apply sumDeps_filter_mono
  intro p hp
  simp only [decide_eq_true_eq] at hp ⊢
  exact fun hmem => hp (Finset.mem_insert_of_mem hmem)

theorem pendingDeps_insert_key (s : Store) (chain : Finset String) (c : String)
    (l : Lemma) (hc : c ∉ chain) (h : s.get? c = some l) :
    l.dependencies.length + pendingDeps s (insert c chain) ≤ pendingDeps s chain := by
  have hmem := get?_mem s c l h
  have hdrop := sumDeps_filter_drop
    (fun p => decide (p.1 ∉ insert c chain)) (fun p => decide (p.1 ∉ chain))
    (fun p hp => by
      simp only [decide_eq_true_eq] at hp ⊢
      exact fun hm => hp (Finset.mem_insert_of_mem hm))
    (c, l)
    (by simp)
    (by simp [hc])
    s.lemmas hmem
  dsimp only at hdrop
  unfold pendingDeps
  omega

theorem chainMeasure_new_lt (s : Store) (chain : Finset String) (c : String)
    (r : List String) (hc : c ∉ chain) :
    chainMeasure s (insert c chain) ((depsOf s c).reverse ++ r) <
      chainMeasure s chain (c :: r) := by
  unfold chainMeasure
  rw [List.length_append, List.length_reverse, List.length_cons]
  cases h : s.get? c with
  | some l =>
    have hkey := pendingDeps_insert_key s chain c l hc h
    have hd : depsOf s c = l.dependencies := by unfold depsOf; rw [h]
    rw [hd]
    omega
  | none =>
    have hle := pendingDeps_insert_le s chain c
    have hd : depsOf s c = [] := by unfold depsOf; rw [h]
    rw [hd]
    simp only [List.length_nil]
    omega

theorem chainStep_nil (s : Store) (fuel : Nat) (chain : Finset String) :
    chainStep s fuel chain [] = chain := by
  cases fuel <;> rfl

theorem chainStep_succ (s : Store) (fuel : Nat) (chain : Finset String)
    (current : String) (rest : List String) :
    chainStep s (fuel + 1) chain (current :: rest) =
      if current ∈ chain then chainStep s fuel chain rest
      else chainStep s fuel (insert current chain)
        ((depsOf s current).reverse ++ rest) := rfl

theorem chainStep_congr (s : Store) :
    ∀ f₁ f₂ chain tp, chainMeasure s chain tp ≤ f₁ → chainMeasure s chain tp ≤ f₂ →
      chainStep s f₁ chain tp = chainStep s f₂ chain tp := by
  intro f₁
  induction f₁ with
  | zero =>
    intro f₂ chain tp h1 _
    have htp : tp = [] := by
      cases tp with
      | nil => rfl
      | cons a b =>
        exfalso
        unfold chainMeasure at h1
        rw [List.length_cons] at h1
        omega
    subst htp
    rw [chainStep_nil, chainStep_nil]
  | succ a ih =>
    intro f₂ chain tp h1 h2
    cases tp with
    | nil => rw [chainStep_nil, chainStep_nil]
    | cons c r =>
      have hm : 1 ≤ chainMeasure s chain (c :: r) := by
        unfold chainMeasure
        rw [List.length_cons]
        omega
      cases f₂ with
      | zero => omega
      | succ b =>
        rw [chainStep_succ, chainStep_succ]
        by_cases hc : c ∈ chain
        · rw [if_pos hc, if_pos hc]
          have hlt : chainMeasure s chain r < chainMeasure s chain (c :: r) := by
            unfold chainMeasure
            rw [List.length_cons]
            omega
          exact ih b chain r (by omega) (by omega)
        · rw [if_neg hc, if_neg hc]
          have hlt := chainMeasure_new_lt s chain c r hc
          exact ih b _ _ (by omega) (by omega)

theorem chainStep_sound (s : Store) (P : String → Prop)
    (hP : ∀ x y, P x → y ∈ depsOf s x → P y) :
    ∀ fuel chain tp, (∀ c ∈ chain, P c) → (∀ t ∈ tp, P t) →
      ∀ x ∈ chainStep s fuel chain tp, P x := by
  intro fuel
  induction fuel with
  | zero =>
    intro chain tp hchain _ x hx
    exact hchain x hx
  | succ a ih =>
    intro chain tp hchain htp x hx
    cases tp with
    | nil =>
      rw [chainStep_nil] at hx
      exact hchain x hx
    | cons c r =>
      rw [chainStep_succ] at hx
      by_cases hc : c ∈ chain
      · rw [if_pos hc] at hx
        exact ih chain r hchain (fun t ht => htp t (List.mem_cons_of_mem c ht)) x hx
      · rw [if_neg hc] at hx
        have hPc : P c := htp c (List.mem_cons_self c r)
        refine ih _ _ ?_ ?_ x hx
        · intro d hd
          rcases Finset.mem_insert.mp hd with h | h
          · subst h; exact hPc
          · exact hchain d h
        · intro t ht
          rcases List.mem_append.mp ht with h | h
          · exact hP c t hPc (List.mem_reverse.mp h)
          · exact htp t (List.mem_cons_of_mem c h)

theorem chainStep_complete (s : Store) :
    ∀ fuel chain tp, chainMeasure s chain tp ≤ fuel →
      (∀ c ∈ chain, ∀ d ∈ depsOf s c, d ∈ chain ∨ d ∈ tp) →
      (∀ x ∈ chain, x ∈ chainStep s fuel chain tp) ∧
      (∀ x ∈ tp, x ∈ chainStep s fuel chain tp) ∧
      (∀ c ∈ chainStep s fuel chain tp, ∀ d ∈ depsOf s c,
        d ∈ chainStep s fuel chain tp) := by
  intro fuel
  induction fuel with
  | zero =>
    intro chain tp hf hinv
    have htp : tp = [] := by
      cases tp with
      | nil => rfl
      | cons a b =>
        exfalso
        unfold chainMeasure at hf
        rw [List.length_cons] at hf
        omega
    subst htp
    refine ⟨fun x hx => hx, fun x hx => absurd hx (List.not_mem_nil x), ?_⟩
    intro c hc d hd
    rcases hinv c hc d hd with h | h
    · exact h
    · exact absurd h (List.not_mem_nil d)
  | succ a ih =>
    intro chain tp hf hinv
    cases tp with
    | nil =>
      simp only [chainStep_nil]
      refine ⟨fun x hx => hx, fun x hx => absurd hx (List.not_mem_nil x), ?_⟩
      intro c hc d hd
      rcases hinv c hc d hd with h | h
      · exact h
      · exact absurd h (List.not_mem_nil d)
    | cons c r =>
      simp only [chainStep_succ]
      by_cases hc : c ∈ chain
      · simp only [if_pos hc]
        have hlt : chainMeasure s chain r < chainMeasure s chain (c :: r) := by
          unfold chainMeasure
          rw [List.length_cons]
          omega
        obtain ⟨h1, h2, h3⟩ := ih chain r (by omega) (by
          intro cc hcc d hd
          rcases hinv cc hcc d hd with h | h
          · exact Or.inl h
          · rcases List.mem_cons.mp h with he | he
            · subst he; exact Or.inl hc
            · exact Or.inr he)
        refine ⟨h1, ?_, h3⟩
        intro x hx
        rcases List.mem_cons.mp hx with he | he
        · subst he; exact h1 x hc
        · exact h2 x he
      · simp only [if_neg hc]
        have hlt := chainMeasure_new_lt s chain c r hc
        obtain ⟨h1, h2, h3⟩ := ih (insert c chain) ((depsOf s c).reverse ++ r)
          (by omega) (by
          intro cc hcc d hd
          rcases Finset.mem_insert.mp hcc with he | he
          · subst he
            exact Or.inr (List.mem_append.mpr (Or.inl (List.mem_reverse.mpr hd)))
          · rcases hinv cc he d hd with h | h
            · exact Or.inl (Finset.mem_insert_of_mem h)
            · rcases List.mem_cons.mp h with hd2 | hd2
              · subst hd2; exact Or.inl (Finset.mem_insert_self d chain)
              · exact Or.inr (List.mem_append.mpr (Or.inr hd2)))
        refine ⟨fun x hx => h1 x (Finset.mem_insert_of_mem hx), ?_, h3⟩
        intro x hx
        rcases List.mem_cons.mp hx with he | he
        · subst he; exact h1 x (Finset.mem_insert_self x chain)
        · exact h2 x (List.mem_append.mpr (Or.inr he))

theorem chainStep_mem_iff (s : Store) (code x : String) :
    x ∈ chainStep s (chainMeasure s ∅ [code]) ∅ [code] ↔ Reaches s code x := by
  constructor
  · intro hx
    refine chainStep_sound s (Reaches s code) ?_ (chainMeasure s ∅ [code]) ∅ [code]
      ?_ ?_ x hx
    · intro a b ha hb
      exact Relation.ReflTransGen.tail ha hb
    · intro c hc
      exact absurd hc (Finset.not_mem_empty c)
    · intro t ht
      rcases List.mem_cons.mp ht with h | h
      · subst h; exact Relation.ReflTransGen.refl
      · exact absurd h (List.not_mem_nil t)
  · intro hx
    have hx' : Relation.ReflTransGen (Edge s) code x := hx
    clear hx
    obtain ⟨h1, h2, h3⟩ := chainStep_complete s (chainMeasure s ∅ [code]) ∅ [code]
      (Nat.le_refl _) (fun c hc => absurd hc (Finset.not_mem_empty c))
    induction hx' with
    | refl => exact h2 code (List.mem_cons_self code [])
    | tail hab hbc ih2 => exact h3 _ ih2 _ hbc

theorem chain_not_self (s : Store) (code : String) :
    code ∉ get_dependency_chain s code := by
  unfold get_dependency_chain
  by_cases h : (s.get? code).isSome
  · rw [if_pos h]
    intro hmem
    rw [Finset.mem_sort] at hmem
    exact (Finset.mem_erase.mp hmem).1 rfl
  · rw [if_neg h]
    exact List.not_mem_nil code

theorem chain_mem_iff (s : Store) (code x : String) :
    x ∈ get_dependency_chain s code ↔
      ((s.get? code).isSome = true ∧ x ≠ code ∧ Reaches s code x) := by
  unfold get_dependency_chain
  by_cases h : (s.get? code).isSome
  · rw [if_pos h, Finset.mem_sort, Finset.mem_erase, chainStep_mem_iff]
    simp [h]
  · rw [if_neg h]
    simp only [List.not_mem_nil, false_iff, not_and]
    intro hs
    exact absurd hs (by simpa using h)

theorem chain_sorted (s : Store) (code : String) :
    List.Sorted (· ≤ ·) (get_dependency_chain s code) := by
  unfold get_dependency_chain
  by_cases h : (s.get? code).isSome
  · rw [if_pos h]
    exact Finset.sort_sorted _ _
  · rw [if_neg h]
    exact List.sorted_nil

theorem decDigit_digitChar : ∀ n, n < 10 → decDigit (Nat.digitChar n) = n := by
  decide

theorem toDigitsCore_append (b : Nat) :
    ∀ fuel n ds, Nat.toDigitsCore b fuel n ds = Nat.toDigitsCore b fuel n [] ++ ds
  | 0, _, _ => rfl
  | fuel + 1, n, ds => by
    simp only [Nat.toDigitsCore]
    by_cases h : n / b = 0
    · rw [if_pos h, if_pos h]
      rfl
    · rw [if_neg h, if_neg h,
        toDigitsCore_append b fuel (n / b) ((n % b).digitChar :: ds),
        toDigitsCore_append b fuel (n / b) [(n % b).digitChar]]
      rw [List.append_assoc]
      rfl

theorem toDigitsCore_fuel :
    ∀ n fuel, n < fuel → Nat.toDigitsCore 10 fuel n [] = Nat.toDigits 10 n := by
  intro n
  induction n using Nat.strong_induction_on with
  | _ n ih =>
    intro fuel hf
    cases fuel with
    | zero => omega
    | succ f =>
      show _ = Nat.toDigitsCore 10 (n + 1) n []
      simp only [Nat.toDigitsCore]
      by_cases h : n / 10 = 0
      · rw [if_pos h, if_pos h]
      · rw [if_neg h, if_neg h]
        have hn : 0 < n := by
          rcases Nat.eq_zero_or_pos n with h0 | h0
          · subst h0; simp at h
          · exact h0
        have hlt : n / 10 < n := Nat.div_lt_self hn (by omega)
        rw [toDigitsCore_append 10 f (n / 10) [(n % 10).digitChar],
          toDigitsCore_append 10 n (n / 10) [(n % 10).digitChar],
          ih (n / 10) hlt f (by omega), ih (n / 10) hlt n (by omega)]

theorem toDigits_lt10 (n : Nat) (h : n < 10) :
    Nat.toDigits 10 n = [Nat.digitChar n] := by
  show Nat.toDigitsCore 10 (n + 1) n [] = _
  simp only [Nat.toDigitsCore]
  have h0 : n / 10 = 0 := Nat.div_eq_of_lt h
  rw [if_pos h0, Nat.mod_eq_of_lt h]

theorem toDigits_ge10 (n : Nat) (h : 10 ≤ n) :
    Nat.toDigits 10 n = Nat.toDigits 10 (n / 10) ++ [Nat.digitChar (n % 10)] := by
  have h0 : ¬ n / 10 = 0 := by
    intro h0
    have hlt : n < 10 := by
      have hmul := Nat.div_add_mod n 10
      rw [h0] at hmul
      have := Nat.mod_lt n (show 0 < 10 by omega)
      omega
    omega
  have step : Nat.toDigits 10 n =
      Nat.toDigitsCore 10 n (n / 10) [(n % 10).digitChar] := by
    show Nat.toDigitsCore 10 (n + 1) n [] = _
    simp only [Nat.toDigitsCore]
    rw [if_neg h0]
  rw [step, toDigitsCore_append 10 n (n / 10) [(n % 10).digitChar],
    toDigitsCore_fuel (n / 10) n (Nat.div_lt_self (by omega) (by omega))]

theorem decodeDigits_append (l : List Char) (c : Char) :
    decodeDigits (l ++ [c]) = 10 * decodeDigits l + decDigit c := by
  unfold decodeDigits
  rw [List.foldl_append]
  rfl

theorem decodeDigits_toDigits : ∀ n, decodeDigits (Nat.toDigits 10 n) = n := by
  intro n
  induction n using Nat.strong_induction_on with
  | _ n ih =>
    by_cases h : n < 10
    · rw [toDigits_lt10 n h]
      show 10 * 0 + decDigit (Nat.digitChar n) = n
      rw [decDigit_digitChar n h]
      omega
    · push_neg at h
      rw [toDigits_ge10 n h, decodeDigits_append,
        ih (n / 10) (Nat.div_lt_self (by omega) (by omega)),
        decDigit_digitChar (n % 10) (Nat.mod_lt n (by omega))]
      omega

theorem natRepr_injective : Function.Injective Nat.repr := by
  intro m n h
  have hdata : Nat.toDigits 10 m = Nat.toDigits 10 n := congrArg String.data h
  have hdec := congrArg decodeDigits hdata
  rwa [decodeDigits_toDigits, decodeDigits_toDigits] at hdec

theorem lcode_injective : Function.Injective (fun k : Nat => "L" ++ Nat.repr k) := by
  intro m n h
  apply natRepr_injective
  have hd := congrArg String.data h
  simp only [String.data_append] at hd
  have hdd : (Nat.repr m).data = (Nat.repr n).data := List.append_cancel_left hd
  exact String.ext hdd

theorem add_lemma_fst (s : Store) (now st : String) (pf : Option String)
    (tg : Option (List String)) (ct nt : Option String) :
    (add_lemma s now st pf tg ct nt).1 = "L" ++ Nat.repr s.code_counter := rfl

theorem add_lemma_counter (s : Store) (now st : String) (pf : Option String)
    (tg : Option (List String)) (ct nt : Option String) :
    (add_lemma s now st pf tg ct nt).2.code_counter = s.code_counter + 1 := rfl

theorem delete_lemma_counter (s : Store) (code : String) :
    (delete_lemma s code).2.code_counter = s.code_counter := by
  unfold delete_lemma
  by_cases h : (s.get? code).isSome
  · rw [if_pos h]
  · rw [if_neg h]

theorem runOps_nil (now : String) (s : Store) : runOps now [] s = (s, []) := rfl

theorem runOps_add (now st : String) (pf : Option String)
    (tg : Option (List String)) (ct nt : Option String) (rest : List Op)
    (s : Store) :
    runOps now (Op.add st pf tg ct nt :: rest) s =
      ((runOps now rest (add_lemma s now st pf tg ct nt).2).1,
        (add_lemma s now st pf tg ct nt).1 ::
          (runOps now rest (add_lemma s now st pf tg ct nt).2).2) := rfl

theorem runOps_del (now c : String) (rest : List Op) (s : Store) :
    runOps now (Op.del c :: rest) s = runOps now rest (delete_lemma s c).2 := rfl

theorem runOps_spec (now : String) :
    ∀ ops : List Op, ∀ s : Store,
      ∃ ks : List Nat,
        (runOps now ops s).2 = ks.map (fun k => "L" ++ Nat.repr k) ∧
        List.Pairwise (· < ·) ks ∧
        (∀ k ∈ ks, s.code_counter ≤ k) ∧
        s.code_counter ≤ (runOps now ops s).1.code_counter
  | [], s => ⟨[], rfl, List.Pairwise.nil, by simp, Nat.le_refl _⟩
  | Op.add st pf tg ct nt :: rest, s => by
    obtain ⟨ks, h1, h2, h3, h4⟩ :=
      runOps_spec now rest (add_lemma s now st pf tg ct nt).2
    rw [add_lemma_counter] at h3 h4
    refine ⟨s.code_counter :: ks, ?_, ?_, ?_, ?_⟩
    · rw [runOps_add, add_lemma_fst]
      rw [List.map_cons, h1]
    · exact List.Pairwise.cons (fun k hk => by have := h3 k hk; omega) h2
    · intro k hk
      rcases List.mem_cons.mp hk with he | he
      · omega
      · have := h3 k he; omega
    · rw [runOps_add]
      simp only
      omega
  | Op.del c :: rest, s => by
    obtain ⟨ks, h1, h2, h3, h4⟩ := runOps_spec now rest (delete_lemma s c).2
    rw [delete_lemma_counter] at h3 h4
    rw [runOps_del]
    exact ⟨ks, h1, h2, h3, h4⟩

theorem find?_key_eq_of_nodup :
    ∀ ls : List (String × Lemma), (ls.map Prod.fst).Nodup →
      ∀ B l, (B, l) ∈ ls → (ls.find? (fun p => p.1 == B)).map Prod.snd = some l
  | [], _, _, l, h => absurd h (List.not_mem_nil _)
  | p :: rest, hnd, B, l, h => by
    rw [List.map_cons] at hnd
    have hnd1 := List.nodup_cons.mp hnd
    rcases List.mem_cons.mp h with he | he
    · rw [← he]
      simp [List.find?_cons]
    · have hB : (p.1 == B) = false := by
        have : p.1 ≠ B := by
          intro hEq
          exact hnd1.1 (hEq ▸ List.mem_map.mpr ⟨(B, l), he, rfl⟩)
        simp [this]
      simp only [List.find?_cons, hB, cond_false]
      exact find?_key_eq_of_nodup rest hnd1.2 B l he

theorem get?_eq_some_iff (s : Store) (hnd : (s.lemmas.map Prod.fst).Nodup)
    (B : String) (l : Lemma) :
    s.get? B = some l ↔ (B, l) ∈ s.lemmas := by
  constructor
  · exact get?_mem s B l
  · intro h
    exact find?_key_eq_of_nodup s.lemmas hnd B l h

theorem mem_get_dependents_iff (s : Store) (A B : String)
    (hnd : (s.lemmas.map Prod.fst).Nodup) :
    B ∈ get_dependents s A ↔ ∃ l, s.get? B = some l ∧ A ∈ l.dependencies := by
  unfold get_dependents
  rw [List.mem_mergeSort, List.mem_map]
  constructor
  · rintro ⟨p, hp, rfl⟩
    rw [List.mem_filter] at hp
    refine ⟨p.2, (get?_eq_some_iff s hnd p.1 p.2).mpr ?_, ?_⟩
    · cases p
      exact hp.1
    · simpa using hp.2
  · rintro ⟨l, hgl, hA⟩
    refine ⟨(B, l), ?_, rfl⟩
    rw [List.mem_filter]
    exact ⟨(get?_eq_some_iff s hnd B l).mp hgl, by simpa using hA⟩

theorem get_dependents_sorted (s : Store) (A : String) :
    List.Sorted (· ≤ ·) (get_dependents s A) := by
  unfold get_dependents
  exact List.sorted_mergeSort' _

theorem chain_subset_deps (s : Store) (Y x : String)
    (hx : x ∈ get_dependency_chain s Y) : ∃ p ∈ s.lemmas, x ∈ p.2.dependencies := by
  unfold get_dependency_chain at hx
  by_cases h : (s.get? Y).isSome
  · rw [if_pos h, Finset.mem_sort, Finset.mem_erase] at hx
    obtain ⟨hne, hmem⟩ := hx
    have hs := chainStep_sound s
      (fun z => z = Y ∨ ∃ p ∈ s.lemmas, z ∈ p.2.dependencies)
      (by
        intro a b _ hb
        right
        unfold depsOf at hb
        cases hga : s.get? a with
        | some l =>
          rw [hga] at hb
          exact ⟨(a, l), get?_mem s a l hga, hb⟩
        | none =>
          rw [hga] at hb
          exact absurd hb (List.not_mem_nil b))
      _ ∅ [Y]
      (fun c hc => absurd hc (Finset.not_mem_empty c))
      (by
        intro t ht
        rcases List.mem_cons.mp ht with h1 | h1
        · exact Or.inl h1
        · exact absurd h1 (List.not_mem_nil t))
      x hmem
    rcases hs with h1 | h1
    · exact absurd h1 hne
    · exact h1
  · rw [if_neg h] at hx
    exact absurd hx (List.not_mem_nil x)

theorem delete_lemma_found (s : Store) (X : String) (h : (s.get? X).isSome) :
    delete_lemma s X =
      (true, Store.mk ((s.lemmas.map (cleanEntry X)).filter (fun p => !(p.1 == X)))
        s.code_counter) := by
  unfold delete_lemma cleanEntry withDeps
  rw [if_pos h]

theorem delete_lemma_absent (s : Store) (X : String)
    (h : (s.get? X).isSome = false) : delete_lemma s X = (false, s) := by
  unfold delete_lemma
  rw [if_neg (by simp [h])]

theorem delete_get?_none (s : Store) (X : String) (h : (s.get? X).isSome) :
    (delete_lemma s X).2.get? X = none := by
  rw [delete_lemma_found s X h]
  unfold Store.get?
  dsimp only
  have hnone : ((s.lemmas.map (cleanEntry X)).filter
      (fun p => !(p.1 == X))).find? (fun p => p.1 == X) = none := by
    rw [List.find?_eq_none]
    intro p hp
    rw [List.mem_filter] at hp
    have h2 := hp.2
    simp only [Bool.not_eq_eq_eq_not, Bool.not_true] at h2
    simp [h2]
  rw [hnone]
  rfl

theorem delete_cleans (s : Store) (X : String) (h : (s.get? X).isSome)
    (hnd : DepsNodup s) :
    ∀ p ∈ (delete_lemma s X).2.lemmas, X ∉ p.2.dependencies := by
  rw [delete_lemma_found s X h]
  intro p hp
  dsimp only at hp
  rw [List.mem_filter] at hp
  obtain ⟨hmem, -⟩ := hp
  rw [List.mem_map] at hmem
  obtain ⟨q, hq, rfl⟩ := hmem
  unfold cleanEntry withDeps
  by_cases hX : X ∈ q.2.dependencies
  · simp only [if_pos hX]
    intro hmem2
    have hnodup := hnd q hq
    exact ((hnodup.mem_erase_iff).mp hmem2).1 rfl
  · simp only [if_neg hX]
    exact hX

theorem delete_keeps_others (s : Store) (X : String) (h : (s.get? X).isSome) :
    ∀ p ∈ s.lemmas, p.1 ≠ X →
      ∃ q ∈ (delete_lemma s X).2.lemmas, q.1 = p.1 := by
  rw [delete_lemma_found s X h]
  intro p hp hne
  refine ⟨cleanEntry X p, ?_, rfl⟩
  dsimp only
  rw [List.mem_filter]
  constructor
  · exact List.mem_map.mpr ⟨p, hp, rfl⟩
  · unfold cleanEntry
    simp [hne]

theorem add_dependency_none (s : Store) (now A B : String)
    (h : s.get? A = none) : add_dependency s now A B = (false, s) := by
  unfold add_dependency
  rw [h]

theorem add_dependency_noB (s : Store) (now A B : String) (l : Lemma)
    (h : s.get? A = some l) (hB : (s.get? B).isSome = false) :
    add_dependency s now A B = (false, s) := by
  unfold add_dependency
  rw [h]
  dsimp only
  rw [if_neg (by simp [hB])]

theorem add_dependency_dup (s : Store) (now A B : String) (l : Lemma)
    (h : s.get? A = some l) (hB : (s.get? B).isSome) (hd : B ∈ l.dependencies) :
    add_dependency s now A B = (true, s) := by
  unfold add_dependency
  rw [h]
  dsimp only
  rw [if_pos hB, if_pos hd]

theorem add_dependency_new (s : Store) (now A B : String) (l : Lemma)
    (h : s.get? A = some l) (hB : (s.get? B).isSome) (hd : B ∉ l.dependencies) :
    add_dependency s now A B =
      (true, Store.mk (setKey s.lemmas A (withDepsMod l (l.dependencies ++ [B]) now))
        s.code_counter) := by
  unfold add_dependency withDepsMod
  rw [h]
  dsimp only
  rw [if_pos hB, if_neg hd]

theorem remove_dependency_hit (s : Store) (A B : String) (l : Lemma)
    (h : s.get? A = some l) (hd : B ∈ l.dependencies) :
    remove_dependency s A B =
      (true, Store.mk (setKey s.lemmas A (withDeps l (l.dependencies.erase B)))
        s.code_counter) := by
  unfold remove_dependency withDeps
  rw [h]
  dsimp only
  rw [if_pos hd]

theorem get?_mk_setKey_ne (L : List (String × Lemma)) (c : Nat) (A k : String)
    (l : Lemma) (hne : k ≠ A) :
    (Store.mk (setKey L A l) c).get? k = (Store.mk L c).get? k := by
  unfold Store.get?
  dsimp only
  rw [find?_setKey_ne L A k l hne]

theorem get?_mk_setKey_self (L : List (String × Lemma)) (c : Nat) (A : String)
    (l : Lemma) : (Store.mk (setKey L A l) c).get? A = some l :=
  get?_setKey_self L A l

theorem update_lemma_hit (s : Store) (now code : String)
    (kwargs : List FieldArg) (l : Lemma) (h : s.get? code = some l) :
    update_lemma s now code kwargs =
      (true, Store.mk (setKey s.lemmas code
        (withMod (kwargs.foldl applyField l) now)) s.code_counter) := by
  unfold update_lemma
  rw [h]

theorem add_lemma_new_record (s : Store) (now st : String) (pf : Option String)
    (tg : Option (List String)) (ct nt : Option String) :
    ((add_lemma s now st pf tg ct nt).2.get?
      ((add_lemma s now st pf tg ct nt).1)).map Lemma.modified = some now := by
  have h : (add_lemma s now st pf tg ct nt).2.get?
      ((add_lemma s now st pf tg ct nt).1) =
      some (Lemma.mk st (pyOrStr pf "") (pyOrList tg) (pyOrStr ct "general")
        (pyOrStr nt "") [] now now) :=
    get?_setKey_self s.lemmas ("L" ++ Nat.repr s.code_counter) _
  rw [h]
  rfl

theorem search_skip_invalid (s : Store) (tags : Option (List String))
    (category : Option String) (has_proof : Option Bool) (q : String)
    (rmatch : String → String → Option Bool) (hbad : ∀ t, rmatch q t = none) :
    search s (some q) tags category has_proof true rmatch =
      search s none tags category has_proof true rmatch := by
  unfold search
  apply List.filter_congr
  intro p _
  have hq : queryGate rmatch true (some q) p.2 = true := by
    unfold queryGate
    dsimp only
    by_cases h : q = ""
    · rw [if_pos h]
    · rw [if_neg h]
      unfold queryFilter
      rw [hbad]
      rfl
  rw [hq]
  rfl

/-- Claim C1: for every store (no dangling edges) and id, the list returned
by `get_dependency_chain` never contains the queried id itself, and the
traversal terminates even on cyclic edge sets: any fuel at least
`chainMeasure` (a bound on the Python `while` loop's iteration count)
produces the same visited set. -/
theorem C1_chain_excludes_origin_and_terminates (s : Store) (code : String)
    (fuel : Nat) (hC : Closed s) (hf : chainMeasure s ∅ [code] ≤ fuel) :
    code ∉ get_dependency_chain s code ∧
    chainStep s fuel ∅ [code] = chainStep s (chainMeasure s ∅ [code]) ∅ [code] :=
  ⟨chain_not_self s code, chainStep_congr s fuel _ ∅ [code] hf (Nat.le_refl _)⟩

/-- Witness for C1 on the cyclic store, where L1000 is reachable from
itself. -/
theorem C1_witness :
    Closed cycStore ∧ chainMeasure cycStore ∅ ["L1000"] ≤ 9 ∧
    ("L1000" ∉ get_dependency_chain cycStore "L1000" ∧
      chainStep cycStore 9 ∅ ["L1000"] =
        chainStep cycStore (chainMeasure cycStore ∅ ["L1000"]) ∅ ["L1000"]) :=
  ⟨by unfold Closed; decide, by decide,
    C1_chain_excludes_origin_and_terminates cycStore "L1000" 9
      (by unfold Closed; decide) (by decide)⟩

/-- Claim C2: `get_dependency_chain` returns exactly the ids reachable along
depends-on edges from the queried id (transitive closure, origin excluded),
sorted lexicographically, and a missing id yields the empty list rather than
an error. -/
theorem C2_chain_is_transitive_closure (s : Store) (code x : String)
    (hC : Closed s) :
    (x ∈ get_dependency_chain s code ↔
      ((s.get? code).isSome = true ∧ x ≠ code ∧ Reaches s code x)) ∧
    List.Sorted (· ≤ ·) (get_dependency_chain s code) ∧
    ((s.get? code).isSome = false → get_dependency_chain s code = []) := by
  refine ⟨chain_mem_iff s code x, chain_sorted s code, ?_⟩
  intro h
  unfold get_dependency_chain
  rw [if_neg (by simp [h])]

/-- Witness for C2 on the cyclic store: L1002 is reached from L1000 through
the two-edge path L1000 → L1001 → L1002. -/
theorem C2_witness :
    Closed cycStore ∧
    (("L1002" ∈ get_dependency_chain cycStore "L1000" ↔
      ((cycStore.get? "L1000").isSome = true ∧ "L1002" ≠ "L1000" ∧
        Reaches cycStore "L1000" "L1002")) ∧
    List.Sorted (· ≤ ·) (get_dependency_chain cycStore "L1000") ∧
    ((cycStore.get? "L1000").isSome = false →
      get_dependency_chain cycStore "L1000" = [])) :=
  ⟨by unfold Closed; decide,
    C2_chain_is_transitive_closure cycStore "L1000" "L1002"
      (by unfold Closed; decide)⟩

/-- Claim C3: `B ∈ get_dependents(A)` exactly when A is in B's direct
dependency list (one hop, not transitive), and the result is sorted
lexicographically. -/
theorem C3_dependents_iff_direct_edge (s : Store) (A B : String)
    (hnd : (s.lemmas.map Prod.fst).Nodup) :
    (B ∈ get_dependents s A ↔ ∃ l, s.get? B = some l ∧ A ∈ l.dependencies) ∧
    List.Sorted (· ≤ ·) (get_dependents s A) :=
  ⟨mem_get_dependents_iff s A B hnd, get_dependents_sorted s A⟩

/-- Witness for C3: on the cyclic store, L1000 is a dependent of L1001. -/
theorem C3_witness :
    (cycStore.lemmas.map Prod.fst).Nodup ∧
    (("L1000" ∈ get_dependents cycStore "L1001" ↔
      ∃ l, cycStore.get? "L1000" = some l ∧ "L1001" ∈ l.dependencies) ∧
    List.Sorted (· ≤ ·) (get_dependents cycStore "L1001")) :=
  ⟨by decide, C3_dependents_iff_direct_edge cycStore "L1001" "L1000" (by decide)⟩

/-- Claim C4: deleting a present id succeeds, removes its record, strips it
from every surviving record's dependency list without deleting those
records, and afterwards no dependency chain ever surfaces it; deleting an
absent id reports failure and changes nothing. -/
theorem C4_delete_preserves_integrity (s : Store) (X : String) (hC : Closed s)
    (hnd : DepsNodup s) :
    ((s.get? X).isSome = true →
      (delete_lemma s X).1 = true ∧
      (delete_lemma s X).2.get? X = none ∧
      (∀ p ∈ (delete_lemma s X).2.lemmas, X ∉ p.2.dependencies) ∧
      (∀ p ∈ s.lemmas, p.1 ≠ X →
        ∃ q ∈ (delete_lemma s X).2.lemmas, q.1 = p.1) ∧
      (∀ Y, X ∉ get_dependency_chain (delete_lemma s X).2 Y)) ∧
    ((s.get? X).isSome = false → delete_lemma s X = (false, s)) := by
  constructor
  · intro h
    refine ⟨?_, delete_get?_none s X h, delete_cleans s X h hnd,
      delete_keeps_others s X h, ?_⟩
    · rw [delete_lemma_found s X h]
    · intro Y hmem
      obtain ⟨p, hp, hX⟩ := chain_subset_deps (delete_lemma s X).2 Y X hmem
      exact delete_cleans s X h hnd p hp hX
  · exact delete_lemma_absent s X

/-- Witness for C4: deleting L1001 from the cyclic store. -/
theorem C4_witness :
    Closed cycStore ∧ DepsNodup cycStore ∧
    (((cycStore.get? "L1001").isSome = true →
      (delete_lemma cycStore "L1001").1 = true ∧
      (delete_lemma cycStore "L1001").2.get? "L1001" = none ∧
      (∀ p ∈ (delete_lemma cycStore "L1001").2.lemmas,
        "L1001" ∉ p.2.dependencies) ∧
      (∀ p ∈ cycStore.lemmas, p.1 ≠ "L1001" →
        ∃ q ∈ (delete_lemma cycStore "L1001").2.lemmas, q.1 = p.1) ∧
      (∀ Y, "L1001" ∉ get_dependency_chain (delete_lemma cycStore "L1001").2 Y)) ∧
    ((cycStore.get? "L1001").isSome = false →
      delete_lemma cycStore "L1001" = (false, cycStore))) :=
  ⟨by unfold Closed; decide, by unfold DepsNodup; decide,
    C4_delete_preserves_integrity cycStore "L1001"
      (by unfold Closed; decide) (by unfold DepsNodup; decide)⟩

/-- Claim C5: `add_dependency(A, B)` is check-then-act: when either id is
absent it reports failure and returns the store unchanged (every record,
dependency list and timestamp untouched). -/
theorem C5_add_dependency_fails_without_mutation (s : Store) (now A B : String)
    (h : (s.get? A).isNone = true ∨ (s.get? B).isNone = true) :
    add_dependency s now A B = (false, s) := by
  rcases h with h | h
  · exact add_dependency_none s now A B (Option.isNone_iff_eq_none.mp h)
  · cases hA : s.get? A with
    | none => exact add_dependency_none s now A B hA
    | some l =>
      refine add_dependency_noB s now A B l hA ?_
      rw [Option.isNone_iff_eq_none.mp h]
      rfl

/-- Witness for C5: adding an edge from the absent id L9999. -/
theorem C5_witness :
    ((cycStore.get? "L9999").isNone = true ∨
      (cycStore.get? "L1000").isNone = true) ∧
    add_dependency cycStore "t1" "L9999" "L1000" = (false, cycStore) :=
  ⟨Or.inl (by decide),
    C5_add_dependency_fails_without_mutation cycStore "t1" "L9999" "L1000"
      (Or.inl (by decide))⟩

/-- Claim C6: after a successful `add_dependency(A, B)`, repeating the same
call still reports success and returns the store unchanged: the edge is not
duplicated and A's `modified` stamp is not bumped again. -/
theorem C6_add_dependency_idempotent (s : Store) (now now₂ A B : String)
    (h : (add_dependency s now A B).1 = true) :
    add_dependency (add_dependency s now A B).2 now₂ A B =
      (true, (add_dependency s now A B).2) := by
  cases hA : s.get? A with
  | none =>
    rw [add_dependency_none s now A B hA] at h
    simp at h
  | some l =>
    cases hB : (s.get? B).isSome with
    | false =>
      rw [add_dependency_noB s now A B l hA hB] at h
      simp at h
    | true =>
      by_cases hd : B ∈ l.dependencies
      · rw [add_dependency_dup s now A B l hA hB hd]
        exact add_dependency_dup s now₂ A B l hA hB hd
      · rw [add_dependency_new s now A B l hA hB hd]
        dsimp only
        have hA1 : (Store.mk (setKey s.lemmas A
            (withDepsMod l (l.dependencies ++ [B]) now)) s.code_counter).get? A =
            some (withDepsMod l (l.dependencies ++ [B]) now) :=
          get?_setKey_self s.lemmas A _
        have hB1 : ((Store.mk (setKey s.lemmas A
            (withDepsMod l (l.dependencies ++ [B]) now)) s.code_counter).get? B).isSome := by
          by_cases hBA : B = A
          · subst hBA
            rw [hA1]
            rfl
          · rw [get?_mk_setKey_ne s.lemmas s.code_counter A B
              (withDepsMod l (l.dependencies ++ [B]) now) hBA]
            exact hB
        have hd1 : B ∈ (withDepsMod l (l.dependencies ++ [B]) now).dependencies := by
          unfold withDepsMod
          simp
        exact add_dependency_dup _ now₂ A B _ hA1 hB1 hd1

/-- Witness for C6: the first call adds the fresh edge L1000 → L1002, the
second is a reported-success no-op. -/
theorem C6_witness :
    (add_dependency cycStore "t1" "L1000" "L1002").1 = true ∧
    add_dependency (add_dependency cycStore "t1" "L1000" "L1002").2 "t2"
        "L1000" "L1002" =
      (true, (add_dependency cycStore "t1" "L1000" "L1002").2) :=
  ⟨by decide,
    C6_add_dependency_idempotent cycStore "t1" "t2" "L1000" "L1002" (by decide)⟩

/-- Claim C7: over any interleaving of create and delete calls the issued
ids are the decimal codes of a strictly increasing list of counter values:
pairwise distinct, strictly increasing in numeric suffix, never reissued
(deletes do not move the counter back). -/
theorem C7_allocator_ids_strictly_increase (now : String) (ops : List Op)
    (s : Store) :
    ∃ ks : List Nat,
      (runOps now ops s).2 = ks.map (fun k => "L" ++ Nat.repr k) ∧
      List.Pairwise (· < ·) ks ∧
      (runOps now ops s).2.Nodup ∧
      s.code_counter ≤ (runOps now ops s).1.code_counter := by
  obtain ⟨ks, h1, h2, h3, h4⟩ := runOps_spec now ops s
  refine ⟨ks, h1, h2, ?_, h4⟩
  rw [h1]
  have hnd : ks.Nodup := List.Pairwise.imp (fun hab => Nat.ne_of_lt hab) h2
  exact hnd.map lcode_injective

/-- Claim C9: an invalid regex pattern (the engine reports `re.error` on
every haystack) makes the query filter a no-op: the search result equals the
same search with no query at all, and in particular the call returns
normally for every store. -/
theorem C9_invalid_regex_skips_filter (s : Store) (tags : Option (List String))
    (category : Option String) (has_proof : Option Bool) (q : String)
    (rmatch : String → String → Option Bool) (hbad : ∀ t, rmatch q t = none) :
    search s (some q) tags category has_proof true rmatch =
      search s none tags category has_proof true rmatch :=
  search_skip_invalid s tags category has_proof q rmatch hbad

/-- Witness for C9: searching the cyclic store with the never-compiling
pattern engine. -/
theorem C9_witness :
    (∀ t, noMatch "(" t = none) ∧
    search cycStore (some "(") none none none true noMatch =
      search cycStore none none none none true noMatch :=
  ⟨fun _ => rfl,
    C9_invalid_regex_skips_filter cycStore none none none "(" noMatch
      (fun _ => rfl)⟩

/-- Claim C10: `add_dependency(A, A)` on a present id reports success and
records the self-loop in A's own dependency list, and even then
`get_dependency_chain(A)` still excludes A from its result. -/
theorem C10_self_loop_accepted_chain_excludes (s : Store) (now A : String)
    (l : Lemma) (hC : Closed s) (hA : s.get? A = some l) :
    (add_dependency s now A A).1 = true ∧
    (∃ l', (add_dependency s now A A).2.get? A = some l' ∧
      A ∈ l'.dependencies) ∧
    A ∉ get_dependency_chain (add_dependency s now A A).2 A := by
  have hAs : (s.get? A).isSome := by rw [hA]; rfl
  by_cases hd : A ∈ l.dependencies
  · rw [add_dependency_dup s now A A l hA hAs hd]
    exact ⟨rfl, ⟨l, hA, hd⟩, chain_not_self s A⟩
  · rw [add_dependency_new s now A A l hA hAs hd]
    dsimp only
    refine ⟨rfl, ⟨withDepsMod l (l.dependencies ++ [A]) now,
      get?_setKey_self s.lemmas A _, ?_⟩, chain_not_self _ A⟩
    unfold withDepsMod
    simp

/-- Witness for C10: the self-loop L1000 → L1000 on the cyclic store. -/
theorem C10_witness :
    Closed cycStore ∧ cycStore.get? "L1000" = some (mkRecord ["L1001"]) ∧
    ((add_dependency cycStore "t1" "L1000" "L1000").1 = true ∧
    (∃ l', (add_dependency cycStore "t1" "L1000" "L1000").2.get? "L1000" =
      some l' ∧ "L1000" ∈ l'.dependencies) ∧
    "L1000" ∉ get_dependency_chain
      (add_dependency cycStore "t1" "L1000" "L1000").2 "L1000") :=
  ⟨by unfold Closed; decide, by decide,
    C10_self_loop_accepted_chain_excludes cycStore "t1" "L1000"
      (mkRecord ["L1001"]) (by unfold Closed; decide) (by decide)⟩

/-- Counterexample to claim C8 as stated: on the cyclic store, removing the
edge L1000 → L1001 succeeds yet L1000's `modified` stamp still reads its
pre-call value "t0" afterwards; `remove_dependency` never writes `modified`
(it does not even read the clock). -/
theorem C8_counterexample :
    (remove_dependency cycStore "L1000" "L1001").1 = true ∧
    ((remove_dependency cycStore "L1000" "L1001").2.get? "L1000").map
      Lemma.modified = some "t0" ∧
    (cycStore.get? "L1000").map Lemma.modified = some "t0" := by
  refine ⟨?_, ?_, ?_⟩ <;> decide

/-- Amended claim C8: every successful mutating operation except
`remove_dependency` refreshes the touched record's `modified` timestamp —
`add_lemma` stamps the freshly stored record, a successful `update_lemma`
stamps the updated record, and `add_dependency` stamps the source record
when it inserts a fresh edge — while a successful `remove_dependency(A, D)`
removes the edge and persists but leaves A's `modified` exactly as it was
(the code never assigns it on that path). -/
theorem C8_amended_modified_refresh_except_remove (s : Store)
    (now A B D st : String) (pf : Option String) (tg : Option (List String))
    (ct nt : Option String) (kwargs : List FieldArg) (l : Lemma) :
    (((add_lemma s now st pf tg ct nt).2.get?
      ((add_lemma s now st pf tg ct nt).1)).map Lemma.modified = some now) ∧
    (s.get? A = some l →
      (update_lemma s now A kwargs).1 = true ∧
      ((update_lemma s now A kwargs).2.get? A).map Lemma.modified = some now) ∧
    (s.get? A = some l → (s.get? B).isSome = true → B ∉ l.dependencies →
      (add_dependency s now A B).1 = true ∧
      ((add_dependency s now A B).2.get? A).map Lemma.modified = some now) ∧
    (s.get? A = some l → D ∈ l.dependencies →
      (remove_dependency s A D).1 = true ∧
      (remove_dependency s A D).2.get? A =
        some (withDeps l (l.dependencies.erase D)) ∧
      ((remove_dependency s A D).2.get? A).map Lemma.modified =
        some l.modified) := by
  refine ⟨add_lemma_new_record s now st pf tg ct nt, ?_, ?_, ?_⟩
  · intro hA
    rw [update_lemma_hit s now A kwargs l hA]
    dsimp only
    have hget : (Store.mk (setKey s.lemmas A
        (withMod (kwargs.foldl applyField l) now)) s.code_counter).get? A =
        some (withMod (kwargs.foldl applyField l) now) :=
      get?_setKey_self s.lemmas A _
    refine ⟨rfl, ?_⟩
    rw [hget]
    rfl
  · intro hA hB hd
    rw [add_dependency_new s now A B l hA hB hd]
    dsimp only
    have hget : (Store.mk (setKey s.lemmas A
        (withDepsMod l (l.dependencies ++ [B]) now)) s.code_counter).get? A =
        some (withDepsMod l (l.dependencies ++ [B]) now) :=
      get?_setKey_self s.lemmas A _
    refine ⟨rfl, ?_⟩
    rw [hget]
    rfl
  · intro hA hd
    rw [remove_dependency_hit s A D l hA hd]
    dsimp only
    have hget : (Store.mk (setKey s.lemmas A (withDeps l (l.dependencies.erase D)))
        s.code_counter).get? A = some (withDeps l (l.dependencies.erase D)) :=
      get?_setKey_self s.lemmas A _
    refine ⟨rfl, hget, ?_⟩
    rw [hget]
    rfl

/-- Witness for the amended C8 on the cyclic store: a fresh record, an
update of L1000, the new edge L1000 → L1002 and the removed edge
L1000 → L1001, with every premise checked to hold concretely. -/
theorem C8_amended_witness :
    cycStore.get? "L1000" = some (mkRecord ["L1001"]) ∧
    (cycStore.get? "L1002").isSome = true ∧
    "L1002" ∉ (mkRecord ["L1001"]).dependencies ∧
    "L1001" ∈ (mkRecord ["L1001"]).dependencies ∧
    ((((add_lemma cycStore "t1" "x" none none none none).2.get?
      ((add_lemma cycStore "t1" "x" none none none none).1)).map
        Lemma.modified = some "t1") ∧
    (cycStore.get? "L1000" = some (mkRecord ["L1001"]) →
      (update_lemma cycStore "t1" "L1000"
        [FieldArg.proof "p2", FieldArg.other "modified"]).1 = true ∧
      ((update_lemma cycStore "t1" "L1000"
        [FieldArg.proof "p2", FieldArg.other "modified"]).2.get? "L1000").map
        Lemma.modified = some "t1") ∧
    (cycStore.get? "L1000" = some (mkRecord ["L1001"]) →
      (cycStore.get? "L1002").isSome = true →
      "L1002" ∉ (mkRecord ["L1001"]).dependencies →
      (add_dependency cycStore "t1" "L1000" "L1002").1 = true ∧
      ((add_dependency cycStore "t1" "L1000" "L1002").2.get? "L1000").map
        Lemma.modified = some "t1") ∧
    (cycStore.get? "L1000" = some (mkRecord ["L1001"]) →
      "L1001" ∈ (mkRecord ["L1001"]).dependencies →
      (remove_dependency cycStore "L1000" "L1001").1 = true ∧
      (remove_dependency cycStore "L1000" "L1001").2.get? "L1000" =
        some (withDeps (mkRecord ["L1001"])
          ((mkRecord ["L1001"]).dependencies.erase "L1001")) ∧
      ((remove_dependency cycStore "L1000" "L1001").2.get? "L1000").map
        Lemma.modified = some (mkRecord ["L1001"]).modified)) :=
  ⟨by decide, by decide, by decide, by decide,
    C8_amended_modified_refresh_except_remove cycStore "t1" "L1000" "L1002"
      "L1001" "x" none none none none
      [FieldArg.proof "p2", FieldArg.other "modified"] (mkRecord ["L1001"])⟩
